import Mathlib

/-!
Verification of the `modav-arrow` columnar array library.

The Rust sources (`src/arrayf64.rs`, `src/utils.rs`) are shallowly embedded
here.  Machine memory is modelled with Lean lists:

* the values buffer (a heap buffer of `len` `f64` slots, some of which are
  never written) becomes a `List F64V`, with the fixed junk value `F64V.nan`
  standing for the unspecified bit pattern of an unwritten slot;
* the validity buffer (a heap buffer of `ceil(len/8)` bytes) becomes a
  `List Nat` whose entries stay below 256;
* `f64` values themselves are modelled by `F64V`: a distinguished `nan`
  payload (never equal to anything under IEEE comparison, itself included)
  and `num k` for the non-NaN bit patterns, indexed by an integer; IEEE
  `==` on non-NaN patterns is modelled as equality of the index.

`is_null`'s bounds assertion (a Rust panic) is modelled by returning
`Option Bool`, `none` standing for the panic.
-/

/-- Model of an `f64` bit pattern: `nan` for the NaN payloads, `num k` for
every non-NaN value. -/
inductive F64V where
  | nan : F64V
  | num (val : Int) : F64V
deriving DecidableEq, Repr

/-- Rust `f64` `PartialEq`: NaN compares unequal to everything, itself
included; other values compare by payload. -/
def fbeq : F64V → F64V → Bool
  | F64V.num a, F64V.num b => a == b
  | _, _ => false

/-- Rust `Option<f64>` `PartialEq` (used by `compare_values` via `!=`). -/
def beqF64Opt : Option F64V → Option F64V → Bool
  | none, none => true
  | some a, some b => fbeq a b
  | _, _ => false

/-- `pub type F64 = Option<f64>;` -/
abbrev F64 := Option F64V

/-- Model of `struct ArrayF64`.  `ptr`/`val_ptr` are the optional values and
validity buffers; `len` and `nulls` the element and null counts. -/
structure ArrayF64 where
  ptr : Option (List F64V)
  val_ptr : Option (List Nat)
  len : Nat
  nulls : Nat
deriving Repr

/-- Number of `None` entries of the input sequence. -/
def countNone (l : List F64) : Nat := l.countP (fun o => o.isNone)

/-- Loop state of `from_sized_iter`: the two buffers being filled, the
running validity byte accumulator, the byte offset of the next commit, and
the running null count. -/
structure BuildState where
  values : List F64V
  validity : List Nat
  val_byte : Nat
  val_offset : Nat
  nulls : Nat
deriving Repr

/-- Body of the `for (idx, value) in sized.into_iter().enumerate()` loop of
`from_sized_iter`: on `Some` write the value and set bit `idx % 8` of the
accumulator, on `None` count the null and clear the bit (`&= !(1 << pos)`,
eight-bit complement); every eighth row commit the accumulated byte. -/
def buildStep (st : BuildState) (idx : Nat) (value : F64) : BuildState :=
  let st1 := match value with
    | some v =>
        { st with values := st.values.set idx v,
                  val_byte := st.val_byte ||| (1 <<< (idx % 8)) }
    | none =>
        { st with nulls := st.nulls + 1,
                  val_byte := st.val_byte &&& (255 ^^^ (1 <<< (idx % 8))) }
  if (idx + 1) % 8 = 0 then
    { st1 with validity := st1.validity.set st1.val_offset st1.val_byte,
               val_byte := 0,
               val_offset := st1.val_offset + 1 }
  else st1

/-- The enumerated loop of `from_sized_iter`, processing the remaining
input starting at index `idx`. -/
def buildLoop : BuildState → Nat → List F64 → BuildState
  | st, _, [] => st
  | st, idx, v :: rest => buildLoop (buildStep st idx v) (idx + 1) rest

/-- `ArrayF64::from_sized_iter`.  The `allocate(len)` call hands back two
uninitialised buffers, modelled as a `nan`-filled values list and a
zero-filled validity list (every byte of the validity buffer is
subsequently written before being read).  After the loop the final partial
byte is committed, and a buffer that turned out to be unnecessary is
released (`None` in the result). -/
def from_sized_iter (input : List F64) : ArrayF64 :=
  let len := input.length
  if len = 0 then
    { ptr := none, val_ptr := none, len := 0, nulls := 0 }
  else
    let st0 : BuildState :=
      { values := List.replicate len F64V.nan,
        validity := List.replicate ((len + 7) / 8) 0,
        val_byte := 0, val_offset := 0, nulls := 0 }
    let st := buildLoop st0 0 input
    let validity :=
      if len % 8 ≠ 0 then st.validity.set st.val_offset st.val_byte
      else st.validity
    { ptr := if st.nulls = len then none else some st.values,
      val_ptr := if st.nulls = 0 then none else some validity,
      len := len,
      nulls := st.nulls }

/-- `ArrayF64::from_vec`. -/
def from_vec (values : List F64) : ArrayF64 := from_sized_iter values

namespace ArrayF64

/-- `Array::new` for `ArrayF64`. -/
def new (values : List F64) : ArrayF64 := from_sized_iter values

/-- `impl From<Vec<f64>> for ArrayF64` (all-valid input). -/
def fromValues (value : List F64V) : ArrayF64 :=
  from_sized_iter (value.map some)

/-- Body of `is_null` after its bounds assertion: if no validity buffer
exists every in-range row is valid; otherwise test bit `idx % 8` of byte
`idx / 8`. -/
def is_null_unchecked (a : ArrayF64) (idx : Nat) : Bool :=
  match a.val_ptr with
  | none => false
  | some buf => (buf.getD (idx / 8) 0) &&& (1 <<< (idx % 8)) == 0

/-- `Array::is_null` for `ArrayF64`.  The `assert!(idx < self.len, ..)` is
modelled by returning `none` (the panic) on an out-of-range index. -/
def is_null (a : ArrayF64) (idx : Nat) : Option Bool :=
  if idx < a.len then some (a.is_null_unchecked idx) else none

/-- `Array::get` for `ArrayF64`.  The interior `self.is_null(idx)` call is
made with `idx < self.len` already established, so its assertion cannot
fire and the unchecked body is called directly.  The `ptr::read` of a slot
returns whatever the slot holds (`nan` junk if it was never written, which
`get` never does on a constructed array). -/
def get (a : ArrayF64) (idx : Nat) : Option F64V :=
  if a.len ≤ idx then none
  else if a.is_null_unchecked idx then none
  else
    match a.ptr with
    | none => none
    | some buf => some (buf.getD idx F64V.nan)

/-- `Array::get_ref` for `ArrayF64`: identical control flow to `get`,
returning a borrow; the borrow is modelled by the value itself. -/
def get_ref (a : ArrayF64) (idx : Nat) : Option F64V :=
  if a.len ≤ idx then none
  else if a.is_null_unchecked idx then none
  else
    match a.ptr with
    | none => none
    | some buf => some (buf.getD idx F64V.nan)

/-- `ArrayF64::compare_validity`: byte-for-byte comparison of the two
validity buffers over `(self.len + 7) / 8` bytes; mismatched presence is
inequality, double absence is equality. -/
def compare_validity (a b : ArrayF64) : Bool :=
  let buffer_len := (a.len + 7) / 8
  match a.val_ptr, b.val_ptr with
  | some own, some other =>
      (List.range buffer_len).all (fun offset => own.getD offset 0 == other.getD offset 0)
  | none, some _ => false
  | some _, none => false
  | none, none => true

/-- `ArrayF64::compare_values`: row-for-row comparison through `get`, under
`Option<f64>`'s `PartialEq`. -/
def compare_values (a b : ArrayF64) : Bool :=
  (List.range a.len).all (fun idx => beqF64Opt (a.get idx) (b.get idx))

/-- `impl PartialEq for ArrayF64`: the early-return chain is the
conjunction of the four checks. -/
def eq (a b : ArrayF64) : Bool :=
  (a.len == b.len) && (a.nulls == b.nulls) && compare_validity a b && compare_values a b

end ArrayF64

/-! ### Byte-level specification of the validity bitmap -/

/-- The byte with the eight given bits, least significant first. -/
def byteFromBits (b0 b1 b2 b3 b4 b5 b6 b7 : Bool) : Nat :=
  (cond b0 1 0) + 2 * (cond b1 1 0) + 4 * (cond b2 1 0) + 8 * (cond b3 1 0) +
  16 * (cond b4 1 0) + 32 * (cond b5 1 0) + 64 * (cond b6 1 0) + 128 * (cond b7 1 0)

/-- Validity of row `i` of the input: `true` iff the row holds a value.
Out-of-range rows read as `false`. -/
def bitAt (input : List F64) (i : Nat) : Bool := (input.getD i none).isSome

/-- Byte `j` of the validity bitmap determined by the input sequence. -/
def byteSpec (input : List F64) (j : Nat) : Nat :=
  byteFromBits (bitAt input (8 * j)) (bitAt input (8 * j + 1)) (bitAt input (8 * j + 2))
    (bitAt input (8 * j + 3)) (bitAt input (8 * j + 4)) (bitAt input (8 * j + 5))
    (bitAt input (8 * j + 6)) (bitAt input (8 * j + 7))

/-- Bit `k` of the loop's byte accumulator just before row `i` is
processed: only positions strictly below `i % 8` have been decided. -/
def accBit (input : List F64) (i k : Nat) : Bool :=
  decide (k < i % 8) && bitAt input (8 * (i / 8) + k)

/-- The loop's byte accumulator just before row `i` is processed. -/
def accByteSpec (input : List F64) (i : Nat) : Nat :=
  byteFromBits (accBit input i 0) (accBit input i 1) (accBit input i 2) (accBit input i 3)
    (accBit input i 4) (accBit input i 5) (accBit input i 6) (accBit input i 7)

/-- Bit `k` of the accumulator just after row `i` is processed (positions
up to and including `i % 8` decided). -/
def afterBit (input : List F64) (i k : Nat) : Bool :=
  decide (k ≤ i % 8) && bitAt input (8 * (i / 8) + k)

/-- The accumulator just after row `i` is processed. -/
def accByteAfter (input : List F64) (i : Nat) : Nat :=
  byteFromBits (afterBit input i 0) (afterBit input i 1) (afterBit input i 2)
    (afterBit input i 3) (afterBit input i 4) (afterBit input i 5) (afterBit input i 6)
    (afterBit input i 7)

/-- The bit of a byte value selected by a position below 8. -/
def bitSelect (m : Nat) (b0 b1 b2 b3 b4 b5 b6 b7 : Bool) : Bool :=
  if m = 0 then b0 else if m = 1 then b1 else if m = 2 then b2 else if m = 3 then b3
  else if m = 4 then b4 else if m = 5 then b5 else if m = 6 then b6 else b7

theorem byteFromBits_lt : ∀ b0 b1 b2 b3 b4 b5 b6 b7 : Bool,
    byteFromBits b0 b1 b2 b3 b4 b5 b6 b7 < 256 := by decide

theorem byte_or_fin : ∀ (m : Fin 8) (b0 b1 b2 b3 b4 b5 b6 b7 : Bool),
    byteFromBits b0 b1 b2 b3 b4 b5 b6 b7 ||| (1 <<< m.val) =
    byteFromBits (b0 || decide (m.val = 0)) (b1 || decide (m.val = 1))
      (b2 || decide (m.val = 2)) (b3 || decide (m.val = 3)) (b4 || decide (m.val = 4))
      (b5 || decide (m.val = 5)) (b6 || decide (m.val = 6)) (b7 || decide (m.val = 7)) := by
  decide

theorem byte_and_fin : ∀ (m : Fin 8) (b0 b1 b2 b3 b4 b5 b6 b7 : Bool),
    byteFromBits b0 b1 b2 b3 b4 b5 b6 b7 &&& (255 ^^^ (1 <<< m.val)) =
    byteFromBits (b0 && !decide (m.val = 0)) (b1 && !decide (m.val = 1))
      (b2 && !decide (m.val = 2)) (b3 && !decide (m.val = 3)) (b4 && !decide (m.val = 4))
      (b5 && !decide (m.val = 5)) (b6 && !decide (m.val = 6)) (b7 && !decide (m.val = 7)) := by
  decide

theorem byte_test_fin : ∀ (m : Fin 8) (b0 b1 b2 b3 b4 b5 b6 b7 : Bool),
    ((byteFromBits b0 b1 b2 b3 b4 b5 b6 b7 &&& (1 <<< m.val)) == 0) =
    !(bitSelect m.val b0 b1 b2 b3 b4 b5 b6 b7) := by decide

theorem byte_testBit_fin : ∀ (m : Fin 8) (b0 b1 b2 b3 b4 b5 b6 b7 : Bool),
    (byteFromBits b0 b1 b2 b3 b4 b5 b6 b7).testBit m.val =
    bitSelect m.val b0 b1 b2 b3 b4 b5 b6 b7 := by decide

theorem byte_or (m : Nat) (hm : m < 8) (b0 b1 b2 b3 b4 b5 b6 b7 : Bool) :
    byteFromBits b0 b1 b2 b3 b4 b5 b6 b7 ||| (1 <<< m) =
    byteFromBits (b0 || decide (m = 0)) (b1 || decide (m = 1)) (b2 || decide (m = 2))
      (b3 || decide (m = 3)) (b4 || decide (m = 4)) (b5 || decide (m = 5))
      (b6 || decide (m = 6)) (b7 || decide (m = 7)) :=
  byte_or_fin ⟨m, hm⟩ b0 b1 b2 b3 b4 b5 b6 b7

theorem byte_and (m : Nat) (hm : m < 8) (b0 b1 b2 b3 b4 b5 b6 b7 : Bool) :
    byteFromBits b0 b1 b2 b3 b4 b5 b6 b7 &&& (255 ^^^ (1 <<< m)) =
    byteFromBits (b0 && !decide (m = 0)) (b1 && !decide (m = 1)) (b2 && !decide (m = 2))
      (b3 && !decide (m = 3)) (b4 && !decide (m = 4)) (b5 && !decide (m = 5))
      (b6 && !decide (m = 6)) (b7 && !decide (m = 7)) :=
  byte_and_fin ⟨m, hm⟩ b0 b1 b2 b3 b4 b5 b6 b7

theorem byte_test (m : Nat) (hm : m < 8) (b0 b1 b2 b3 b4 b5 b6 b7 : Bool) :
    ((byteFromBits b0 b1 b2 b3 b4 b5 b6 b7 &&& (1 <<< m)) == 0) =
    !(bitSelect m b0 b1 b2 b3 b4 b5 b6 b7) :=
  byte_test_fin ⟨m, hm⟩ b0 b1 b2 b3 b4 b5 b6 b7

theorem byte_testBit (m : Nat) (hm : m < 8) (b0 b1 b2 b3 b4 b5 b6 b7 : Bool) :
    (byteFromBits b0 b1 b2 b3 b4 b5 b6 b7).testBit m =
    bitSelect m b0 b1 b2 b3 b4 b5 b6 b7 :=
  byte_testBit_fin ⟨m, hm⟩ b0 b1 b2 b3 b4 b5 b6 b7

theorem bitSelect_byteSpec (input : List F64) (i : Nat) :
    bitSelect (i % 8) (bitAt input (8 * (i / 8))) (bitAt input (8 * (i / 8) + 1))
      (bitAt input (8 * (i / 8) + 2)) (bitAt input (8 * (i / 8) + 3))
      (bitAt input (8 * (i / 8) + 4)) (bitAt input (8 * (i / 8) + 5))
      (bitAt input (8 * (i / 8) + 6)) (bitAt input (8 * (i / 8) + 7)) = bitAt input i := by
  have hm : i % 8 = 0 ∨ i % 8 = 1 ∨ i % 8 = 2 ∨ i % 8 = 3 ∨ i % 8 = 4 ∨ i % 8 = 5 ∨
      i % 8 = 6 ∨ i % 8 = 7 := by omega
  rcases hm with h | h | h | h | h | h | h | h <;>
    · simp only [h, bitSelect]
      norm_num
      congr 1
      omega

/-! ### The build-loop invariant -/

theorem setAtAppend {α : Type} (A : List α) (x w : α) (B : List α) :
    (A ++ x :: B).set A.length w = A ++ w :: B := by
  induction A with
  | nil => rfl
  | cons y ys ih => simp [List.set, ih]

theorem bitAt_eq_false (input : List F64) (i : Nat) (h : input.length ≤ i) :
    bitAt input i = false := by
  rw [bitAt, List.getD_eq_getElem?_getD, List.getElem?_eq_none h]
  rfl

theorem accBit_or (input : List F64) (i k : Nat) (h : bitAt input i = true) :
    (accBit input i k || decide (i % 8 = k)) = afterBit input i k := by
  unfold accBit afterBit
  by_cases hk : i % 8 = k
  · have hik : 8 * (i / 8) + k = i := by omega
    rw [hik, h]
    simp [hk]
  · simp only [hk, decide_False, Bool.or_false]
    congr 1
    rw [decide_eq_decide]
    omega

theorem accBit_and (input : List F64) (i k : Nat) (h : bitAt input i = false) :
    (accBit input i k && !decide (i % 8 = k)) = afterBit input i k := by
  unfold accBit afterBit
  by_cases hk : i % 8 = k
  · have hik : 8 * (i / 8) + k = i := by omega
    rw [hik, h]
    simp
  · simp only [hk, decide_False, Bool.not_false, Bool.and_true]
    congr 1
    rw [decide_eq_decide]
    omega

theorem acc_or_step (input : List F64) (i : Nat) (h : bitAt input i = true) :
    accByteSpec input i ||| (1 <<< (i % 8)) = accByteAfter input i := by
  have hm : i % 8 < 8 := Nat.mod_lt _ (by norm_num)
  rw [accByteSpec, byte_or (i % 8) hm, accBit_or input i 0 h, accBit_or input i 1 h,
    accBit_or input i 2 h, accBit_or input i 3 h, accBit_or input i 4 h, accBit_or input i 5 h,
    accBit_or input i 6 h, accBit_or input i 7 h, accByteAfter]

theorem acc_and_step (input : List F64) (i : Nat) (h : bitAt input i = false) :
    accByteSpec input i &&& (255 ^^^ (1 <<< (i % 8))) = accByteAfter input i := by
  have hm : i % 8 < 8 := Nat.mod_lt _ (by norm_num)
  rw [accByteSpec, byte_and (i % 8) hm, accBit_and input i 0 h, accBit_and input i 1 h,
    accBit_and input i 2 h, accBit_and input i 3 h, accBit_and input i 4 h, accBit_and input i 5 h,
    accBit_and input i 6 h, accBit_and input i 7 h, accByteAfter]

theorem after_to_next (input : List F64) (i : Nat) (hb : (i + 1) % 8 ≠ 0) :
    accByteAfter input i = accByteSpec input (i + 1) := by
  unfold accByteAfter accByteSpec afterBit accBit
  have h1 : (i + 1) / 8 = i / 8 := by omega
  have h2 : (i + 1) % 8 = i % 8 + 1 := by omega
  rw [h1, h2]
  simp only [Nat.lt_succ_iff]

theorem after_to_byte (input : List F64) (i : Nat) (hb : (i + 1) % 8 = 0) :
    accByteAfter input i = byteSpec input (i / 8) := by
  unfold accByteAfter byteSpec afterBit
  have h2 : i % 8 = 7 := by omega
  rw [h2]
  norm_num

theorem acc_zero (input : List F64) (i : Nat) (h : i % 8 = 0) : accByteSpec input i = 0 := by
  unfold accByteSpec accBit
  rw [h]
  norm_num [byteFromBits]

theorem accBit_final (input : List F64) (k : Nat) :
    accBit input input.length k = bitAt input (8 * (input.length / 8) + k) := by
  unfold accBit
  by_cases hk : k < input.length % 8
  · simp [hk]
  · have hout : input.length ≤ 8 * (input.length / 8) + k := by omega
    simp [hk, bitAt_eq_false input _ hout]

theorem acc_final (input : List F64) :
    accByteSpec input input.length = byteSpec input (input.length / 8) := by
  unfold accByteSpec byteSpec
  rw [accBit_final input 0, accBit_final input 1, accBit_final input 2, accBit_final input 3,
    accBit_final input 4, accBit_final input 5, accBit_final input 6, accBit_final input 7]
  norm_num

/-- Contents of a values-buffer slot for a given input element: the value
if one was written, the `nan` junk pattern if the slot was never touched. -/
def slotVal (o : F64) : F64V := o.getD F64V.nan

/-- The loop state just before row `i` is processed: the first `i` slots of
the values buffer are written, the first `i / 8` validity bytes are
committed, the accumulator holds the bits of the current partial byte, and
`nulls` counts the `None`s seen so far. -/
def stInv (input : List F64) (i : Nat) : BuildState :=
  { values := (input.take i).map slotVal ++ List.replicate (input.length - i) F64V.nan,
    validity := (List.range (i / 8)).map (byteSpec input) ++
      List.replicate ((input.length + 7) / 8 - i / 8) 0,
    val_byte := accByteSpec input i,
    val_offset := i / 8,
    nulls := countNone (input.take i) }

theorem getD_eq_getElem_at (input : List F64) (i : Nat) (hi : i < input.length) :
    input.getD i none = input.get ⟨i, hi⟩ := by
  rw [List.getD_eq_getElem?_getD, List.getElem?_eq_getElem hi]
  simp

theorem getElem_opt_at (input : List F64) (i : Nat) (hi : i < input.length) :
    input[i]? = some (input.getD i none) := by
  rw [List.getElem?_eq_getElem hi, getD_eq_getElem_at input i hi]
  simp

theorem values_step_some (input : List F64) (i : Nat) (w : F64V)
    (hi : i < input.length) (hv : input.getD i none = some w) :
    ((input.take i).map slotVal ++ List.replicate (input.length - i) F64V.nan).set i w =
    (input.take (i + 1)).map slotVal ++ List.replicate (input.length - (i + 1)) F64V.nan := by
  have hA : ((input.take i).map slotVal).length = i := by
    simp [List.length_take]
    omega
  have hrep : List.replicate (input.length - i) F64V.nan =
      F64V.nan :: List.replicate (input.length - (i + 1)) F64V.nan := by
    rw [show input.length - i = (input.length - (i + 1)) + 1 from by omega]
    rfl
  have hset := setAtAppend ((input.take i).map slotVal) F64V.nan w
    (List.replicate (input.length - (i + 1)) F64V.nan)
  rw [hA] at hset
  have hge : input[i]? = some (some w) := by rw [getElem_opt_at input i hi, hv]
  rw [hrep, hset, List.take_succ, hge]
  simp [slotVal]

theorem values_step_none (input : List F64) (i : Nat)
    (hi : i < input.length) (hv : input.getD i none = none) :
    (input.take i).map slotVal ++ List.replicate (input.length - i) F64V.nan =
    (input.take (i + 1)).map slotVal ++ List.replicate (input.length - (i + 1)) F64V.nan := by
  have hrep : List.replicate (input.length - i) F64V.nan =
      F64V.nan :: List.replicate (input.length - (i + 1)) F64V.nan := by
    rw [show input.length - i = (input.length - (i + 1)) + 1 from by omega]
    rfl
  have hge : input[i]? = some none := by rw [getElem_opt_at input i hi, hv]
  rw [hrep, List.take_succ, hge]
  simp [slotVal]

theorem nulls_step (input : List F64) (i : Nat) (hi : i < input.length) :
    countNone (input.take (i + 1)) =
    countNone (input.take i) + (if (input.getD i none).isNone then 1 else 0) := by
  rw [countNone, countNone, List.take_succ, List.countP_append, getElem_opt_at input i hi]
  congr 1
  rcases h : input.getD i none with _ | y <;>
    simp [← List.getD_eq_getElem?_getD, h]

theorem validity_step (input : List F64) (i : Nat) (hi : i < input.length)
    (hb : (i + 1) % 8 = 0) :
    ((List.range (i / 8)).map (byteSpec input) ++
      List.replicate ((input.length + 7) / 8 - i / 8) 0).set (i / 8) (accByteAfter input i) =
    (List.range ((i + 1) / 8)).map (byteSpec input) ++
      List.replicate ((input.length + 7) / 8 - (i + 1) / 8) 0 := by
  have hB : i / 8 < (input.length + 7) / 8 := by omega
  have hmap : ((List.range (i / 8)).map (byteSpec input)).length = i / 8 := by simp
  have hrep : List.replicate ((input.length + 7) / 8 - i / 8) (0 : Nat) =
      0 :: List.replicate ((input.length + 7) / 8 - (i / 8 + 1)) 0 := by
    rw [show (input.length + 7) / 8 - i / 8 = ((input.length + 7) / 8 - (i / 8 + 1)) + 1 from by
      omega]
    rfl
  have hset := setAtAppend ((List.range (i / 8)).map (byteSpec input)) (0 : Nat)
    (accByteAfter input i) (List.replicate ((input.length + 7) / 8 - (i / 8 + 1)) 0)
  rw [hmap] at hset
  have h18 : (i + 1) / 8 = i / 8 + 1 := by omega
  rw [hrep, hset, after_to_byte input i hb, h18, List.range_succ, List.map_append]
  simp

theorem buildStep_inv (input : List F64) (i : Nat) (v : F64)
    (hi : i < input.length) (hv : input.getD i none = v) :
    buildStep (stInv input i) i v = stInv input (i + 1) := by
  have hbit : bitAt input i = v.isSome := by rw [bitAt, hv]
  rcases v with _ | w
  · have hb : bitAt input i = false := by simp [hbit]
    by_cases h8 : (i + 1) % 8 = 0
    · simp only [buildStep, stInv, h8, if_true, reduceIte]
      rw [BuildState.mk.injEq]
      refine ⟨values_step_none input i hi hv, ?_, ?_, by omega, ?_⟩
      · rw [acc_and_step input i hb, validity_step input i hi h8]
      · rw [acc_zero input (i + 1) (by omega)]
      · rw [nulls_step input i hi, hv]
        rfl
    · simp only [buildStep, stInv, h8, reduceIte]
      rw [BuildState.mk.injEq]
      have h18 : (i + 1) / 8 = i / 8 := by omega
      refine ⟨values_step_none input i hi hv, by rw [h18], ?_, by omega, ?_⟩
      · rw [acc_and_step input i hb, after_to_next input i h8]
      · rw [nulls_step input i hi, hv]
        rfl
  · have hb : bitAt input i = true := by simp [hbit]
    by_cases h8 : (i + 1) % 8 = 0
    · simp only [buildStep, stInv, h8, if_true, reduceIte]
      rw [BuildState.mk.injEq]
      refine ⟨values_step_some input i w hi hv, ?_, ?_, by omega, ?_⟩
      · rw [acc_or_step input i hb, validity_step input i hi h8]
      · rw [acc_zero input (i + 1) (by omega)]
      · rw [nulls_step input i hi, hv]
        rfl
    · simp only [buildStep, stInv, h8, reduceIte]
      rw [BuildState.mk.injEq]
      have h18 : (i + 1) / 8 = i / 8 := by omega
      refine ⟨values_step_some input i w hi hv, by rw [h18], ?_, by omega, ?_⟩
      · rw [acc_or_step input i hb, after_to_next input i h8]
      · rw [nulls_step input i hi, hv]
        rfl

theorem buildLoop_inv : ∀ (rest input : List F64) (i : Nat),
    input.drop i = rest → i ≤ input.length →
    buildLoop (stInv input i) i rest = stInv input input.length := by
  intro rest
  induction rest with
  | nil =>
    intro input i hdrop hle
    have hge : input.length ≤ i := List.drop_eq_nil_iff.mp hdrop
    have : i = input.length := le_antisymm hle hge
    subst this
    rfl
  | cons v rest ih =>
    intro input i hdrop hle
    have hi : i < input.length := by
      by_contra hc
      push_neg at hc
      rw [List.drop_eq_nil_iff.mpr hc] at hdrop
      exact List.noConfusion hdrop
    have hcons := List.drop_eq_getElem_cons hi
    rw [hcons] at hdrop
    injection hdrop with h1 h2
    have hv : input.getD i none = v := by
      rw [getD_eq_getElem_at input i hi]
      exact h1
    simp only [buildLoop]
    rw [buildStep_inv input i v hi hv]
    exact ih input (i + 1) h2 (by omega)

theorem fsi_eq (input : List F64) :
    from_sized_iter input =
    { ptr := if countNone input = input.length then none else some (input.map slotVal),
      val_ptr := if countNone input = 0 then none
        else some ((List.range ((input.length + 7) / 8)).map (byteSpec input)),
      len := input.length,
      nulls := countNone input } := by
  by_cases h0 : input.length = 0
  · have h1 : input = [] := List.length_eq_zero.mp h0
    subst h1
    rfl
  · have hst0 : BuildState.mk (List.replicate input.length F64V.nan)
        (List.replicate ((input.length + 7) / 8) 0) 0 0 0 = stInv input 0 := by
      rw [stInv, BuildState.mk.injEq]
      exact ⟨by simp, by simp, (acc_zero input 0 (by omega)).symm, by simp, by simp [countNone]⟩
    have hloop := buildLoop_inv input input 0 (by rw [List.drop_zero]) (by omega)
    simp only [from_sized_iter]
    rw [if_neg h0, hst0, hloop]
    simp only [stInv, List.take_length, Nat.sub_self, List.replicate_zero, List.append_nil]
    rw [ArrayF64.mk.injEq]
    refine ⟨rfl, ?_, rfl, rfl⟩
    by_cases h8 : input.length % 8 = 0
    · rw [if_neg (by omega : ¬input.length % 8 ≠ 0),
        show (input.length + 7) / 8 - input.length / 8 = 0 from by omega, List.replicate_zero,
        List.append_nil, show input.length / 8 = (input.length + 7) / 8 from by omega]
    · have hmap : ((List.range (input.length / 8)).map (byteSpec input)).length =
          input.length / 8 := by simp
      have hset := setAtAppend ((List.range (input.length / 8)).map (byteSpec input)) (0 : Nat)
        (accByteSpec input input.length) []
      rw [hmap] at hset
      rw [if_pos h8, show (input.length + 7) / 8 - input.length / 8 = 1 from by omega,
        show List.replicate 1 (0 : Nat) = [0] from rfl, hset, acc_final input,
        show (input.length + 7) / 8 = input.length / 8 + 1 from by omega,
        List.range_succ, List.map_append]
      simp

theorem fsi_len (input : List F64) : (from_sized_iter input).len = input.length := by
  rw [fsi_eq]

theorem fsi_nulls (input : List F64) : (from_sized_iter input).nulls = countNone input := by
  rw [fsi_eq]

theorem fsi_ptr (input : List F64) :
    (from_sized_iter input).ptr =
    if countNone input = input.length then none else some (input.map slotVal) := by
  rw [fsi_eq]

theorem fsi_val_ptr (input : List F64) :
    (from_sized_iter input).val_ptr =
    if countNone input = 0 then none
    else some ((List.range ((input.length + 7) / 8)).map (byteSpec input)) := by
  rw [fsi_eq]

/-! ### Decoding a constructed array -/

theorem byteSpec_test (input : List F64) (idx : Nat) :
    ((byteSpec input (idx / 8)) &&& (1 <<< (idx % 8)) == 0) = !(bitAt input idx) := by
  have hm : idx % 8 < 8 := Nat.mod_lt _ (by norm_num)
  rw [byteSpec, byte_test (idx % 8) hm, bitSelect_byteSpec]

theorem byteSpec_testBit (input : List F64) (idx : Nat) :
    (byteSpec input (idx / 8)).testBit (idx % 8) = bitAt input idx := by
  have hm : idx % 8 < 8 := Nat.mod_lt _ (by norm_num)
  rw [byteSpec, byte_testBit (idx % 8) hm, bitSelect_byteSpec]

theorem getD_map_range {α : Type} (B j : Nat) (f : Nat → α) (d : α) (h : j < B) :
    ((List.range B).map f).getD j d = f j := by
  rw [List.getD_eq_getElem?_getD, List.getElem?_map, List.getElem?_range h]
  rfl

theorem countNone_le (l : List F64) : countNone l ≤ l.length := l.countP_le_length _

theorem countNone_eq_zero (l : List F64) :
    countNone l = 0 ↔ ∀ o ∈ l, o ≠ none := by
  rw [countNone, List.countP_eq_zero]
  simp

theorem countNone_eq_length (l : List F64) :
    countNone l = l.length ↔ ∀ o ∈ l, o.isNone = true := by
  rw [countNone, List.countP_eq_length]

theorem getD_isNone_false (l : List F64) (i : Nat) (hi : i < l.length)
    (h : countNone l = 0) : (l.getD i none).isNone = false := by
  have hmem : l.getD i none ∈ l := by
    rw [getD_eq_getElem_at l i hi]
    exact l.get_mem i hi
  have hne := (countNone_eq_zero l).mp h _ hmem
  rcases hx : l.getD i none with _ | w
  · exact absurd hx hne
  · rfl

theorem getD_isNone_true (l : List F64) (i : Nat) (hi : i < l.length)
    (h : countNone l = l.length) : (l.getD i none).isNone = true := by
  have hmem : l.getD i none ∈ l := by
    rw [getD_eq_getElem_at l i hi]
    exact l.get_mem i hi
  exact (countNone_eq_length l).mp h _ hmem

theorem fsi_is_null_unchecked (input : List F64) (idx : Nat) (hi : idx < input.length) :
    (from_sized_iter input).is_null_unchecked idx = (input.getD idx none).isNone := by
  by_cases h0 : countNone input = 0
  · simp only [ArrayF64.is_null_unchecked, fsi_val_ptr]
    rw [if_pos h0]
    rw [getD_isNone_false input idx hi h0]
  · simp only [ArrayF64.is_null_unchecked, fsi_val_ptr]
    rw [if_neg h0]
    have hj : idx / 8 < (input.length + 7) / 8 := by omega
    simp only []
    rw [getD_map_range ((input.length + 7) / 8) (idx / 8) (byteSpec input) 0 hj, byteSpec_test]
    rw [bitAt]
    cases input.getD idx none <;> rfl

theorem fsi_is_null (input : List F64) (idx : Nat) (hi : idx < input.length) :
    (from_sized_iter input).is_null idx = some ((input.getD idx none).isNone) := by
  simp only [ArrayF64.is_null, fsi_len]
  rw [if_pos hi, fsi_is_null_unchecked input idx hi]

theorem fsi_is_null_panic (input : List F64) (idx : Nat) (hi : input.length ≤ idx) :
    (from_sized_iter input).is_null idx = none := by
  simp only [ArrayF64.is_null, fsi_len]
  rw [if_neg (by omega : ¬idx < input.length)]

theorem fsi_get (input : List F64) (idx : Nat) :
    (from_sized_iter input).get idx = input.getD idx none := by
  by_cases hi : idx < input.length
  · simp only [ArrayF64.get, fsi_len]
    rw [if_neg (by omega : ¬input.length ≤ idx), fsi_is_null_unchecked input idx hi]
    by_cases hn : (input.getD idx none).isNone
    · rw [if_pos hn]
      exact (Option.isNone_iff_eq_none.mp hn).symm
    · rw [if_neg hn]
      have hne : countNone input ≠ input.length := by
        intro hc
        exact hn (getD_isNone_true input idx hi hc)
      simp only [fsi_ptr]
      rw [if_neg hne]
      simp only []
      rw [List.getD_eq_getElem?_getD, List.getElem?_map, List.getElem?_eq_getElem hi]
      have hx : input[idx] = input.getD idx none := (getD_eq_getElem_at input idx hi).symm
      rw [hx]
      rcases hcase : input.getD idx none with _ | w
      · rw [hcase] at hn
        simp at hn
      · rfl
  · have hge : input.length ≤ idx := by omega
    simp only [ArrayF64.get, fsi_len]
    rw [if_pos hge, List.getD_eq_getElem?_getD, List.getElem?_eq_none hge]
    rfl

theorem get_ref_eq_get (a : ArrayF64) (idx : Nat) : a.get_ref idx = a.get idx := rfl

theorem fsi_get_ref (input : List F64) (idx : Nat) :
    (from_sized_iter input).get_ref idx = input.getD idx none := by
  rw [get_ref_eq_get, fsi_get]

/-! ### The iterator family (`utils.rs`) -/

/-- `Iter<'a, ArrayF64>`: borrowing iterator (a reference to the array and
the current position). -/
structure Iter where
  array : ArrayF64
  idx : Nat

/-- `Iterator::next` for `Iter`: the position advances unconditionally;
in-range positions yield `Some(get_ref(idx))`, others `None`. -/
def Iter.next (it : Iter) : Option (Option F64V) × Iter :=
  let idx := it.idx
  let it2 : Iter := { it with idx := idx + 1 }
  if idx ≥ it.array.len then (none, it2)
  else (some (it.array.get_ref idx), it2)

/-- `Iterator::count` for `Iter`. -/
def Iter.count (it : Iter) : Nat := it.array.len - it.idx

/-- `Iterator::size_hint` for `Iter`. -/
def Iter.size_hint (it : Iter) : Nat × Option Nat :=
  let len := it.array.len - it.idx
  (len, some len)

/-- `ExactSizeIterator::len` for `Iter`. -/
def Iter.len (it : Iter) : Nat := it.array.len - it.idx

/-- `CopiedIter<'a, ArrayF64>`: copying iterator. -/
structure CopiedIter where
  array : ArrayF64
  idx : Nat

/-- `Iterator::next` for `CopiedIter`, delegating to `get`. -/
def CopiedIter.next (it : CopiedIter) : Option (Option F64V) × CopiedIter :=
  let idx := it.idx
  let it2 : CopiedIter := { it with idx := idx + 1 }
  if idx ≥ it.array.len then (none, it2)
  else (some (it.array.get idx), it2)

/-- `Iterator::count` for `CopiedIter`. -/
def CopiedIter.count (it : CopiedIter) : Nat := it.array.len - it.idx

/-- `Iterator::size_hint` for `CopiedIter`. -/
def CopiedIter.size_hint (it : CopiedIter) : Nat × Option Nat :=
  let len := it.array.len - it.idx
  (len, some len)

/-- `ExactSizeIterator::len` for `CopiedIter`. -/
def CopiedIter.len (it : CopiedIter) : Nat := it.array.len - it.idx

/-- `IntoIter<ArrayF64>`: consuming iterator (owns the array). -/
structure IntoIter where
  array : ArrayF64
  idx : Nat

/-- `IntoIter::new`. -/
def IntoIter.new (array : ArrayF64) : IntoIter := { array := array, idx := 0 }

/-- `Iterator::next` for `IntoIter`, delegating to `get`. -/
def IntoIter.next (it : IntoIter) : Option (Option F64V) × IntoIter :=
  let idx := it.idx
  let it2 : IntoIter := { it with idx := idx + 1 }
  if idx ≥ it.array.len then (none, it2)
  else (some (it.array.get idx), it2)

/-- `Iterator::count` for `IntoIter`. -/
def IntoIter.count (it : IntoIter) : Nat := it.array.len - it.idx

/-- `Iterator::size_hint` for `IntoIter`. -/
def IntoIter.size_hint (it : IntoIter) : Nat × Option Nat :=
  let len := it.array.len - it.idx
  (len, some len)

/-- `ExactSizeIterator::len` for `IntoIter`. -/
def IntoIter.len (it : IntoIter) : Nat := it.array.len - it.idx

/-- `Array::iter`. -/
def ArrayF64.iter (a : ArrayF64) : Iter := { array := a, idx := 0 }

/-- `Array::copied_iter`. -/
def ArrayF64.copied_iter (a : ArrayF64) : CopiedIter := { array := a, idx := 0 }

/-- `IntoIterator::into_iter` for `ArrayF64`: `IntoIter::new(self)`. -/
def ArrayF64.into_iter (a : ArrayF64) : IntoIter := IntoIter.new a

/-- Outputs and final state of `k` successive `next` calls on an `Iter`. -/
def Iter.run : Iter → Nat → List (Option F64V) × Iter
  | it, 0 => ([], it)
  | it, Nat.succ k =>
      match it.next with
      | (some x, it2) =>
          let r := it2.run k
          (x :: r.1, r.2)
      | (none, it2) => it2.run k

/-- Outputs and final state of `k` successive `next` calls on a `CopiedIter`. -/
def CopiedIter.run : CopiedIter → Nat → List (Option F64V) × CopiedIter
  | it, 0 => ([], it)
  | it, Nat.succ k =>
      match it.next with
      | (some x, it2) =>
          let r := it2.run k
          (x :: r.1, r.2)
      | (none, it2) => it2.run k

/-- Outputs and final state of `k` successive `next` calls on an `IntoIter`. -/
def IntoIter.run : IntoIter → Nat → List (Option F64V) × IntoIter
  | it, 0 => ([], it)
  | it, Nat.succ k =>
      match it.next with
      | (some x, it2) =>
          let r := it2.run k
          (x :: r.1, r.2)
      | (none, it2) => it2.run k

/-- Draining an `Iter` (calling `next` once per remaining row). -/
def Iter.collect (it : Iter) : List (Option F64V) := (it.run (it.array.len - it.idx)).1

/-- Draining an `IntoIter`. -/
def IntoIter.collect (it : IntoIter) : List (Option F64V) := (it.run (it.array.len - it.idx)).1

/-- `impl Clone for ArrayF64`:
`Self::from_sized_iter(self.iter().map(|val| val.copied()))`.  The
`.copied()` adaptor is the identity on the modelled values, and consuming
the mapped iterator reads off the collected items of `iter()`. -/
def ArrayF64.clone (a : ArrayF64) : ArrayF64 := from_sized_iter a.iter.collect

/-- `impl From<ArrayF64> for Vec<F64>`: `value.into_iter().collect()`. -/
def toVec (a : ArrayF64) : List F64 := (IntoIter.new a).collect

theorem iter_run_spec (a : ArrayF64) : ∀ (k i : Nat), i + k ≤ a.len →
    Iter.run { array := a, idx := i } k =
    ((List.range k).map (fun j => a.get_ref (i + j)), { array := a, idx := i + k }) := by
  intro k
  induction k with
  | zero =>
    intro i h
    simp [Iter.run]
  | succ k ih =>
    intro i h
    have hnext : Iter.next { array := a, idx := i } =
        (some (a.get_ref i), { array := a, idx := i + 1 }) := by
      simp only [Iter.next]
      rw [if_neg (by omega : ¬a.len ≤ i)]
    simp only [Iter.run, hnext]
    rw [ih (i + 1) (by omega)]
    have hfun : ((fun j => a.get_ref (i + j)) ∘ Nat.succ) = fun j => a.get_ref (i + 1 + j) := by
      funext j
      simp only [Function.comp]
      congr 1
      omega
    simp only [List.range_succ_eq_map, List.map_cons, List.map_map, hfun]
    rw [Prod.mk.injEq]
    exact ⟨by norm_num, by rw [show i + (k + 1) = i + 1 + k from by omega]⟩

theorem copied_run_spec (a : ArrayF64) : ∀ (k i : Nat), i + k ≤ a.len →
    CopiedIter.run { array := a, idx := i } k =
    ((List.range k).map (fun j => a.get (i + j)), { array := a, idx := i + k }) := by
  intro k
  induction k with
  | zero =>
    intro i h
    simp [CopiedIter.run]
  | succ k ih =>
    intro i h
    have hnext : CopiedIter.next { array := a, idx := i } =
        (some (a.get i), { array := a, idx := i + 1 }) := by
      simp only [CopiedIter.next]
      rw [if_neg (by omega : ¬a.len ≤ i)]
    simp only [CopiedIter.run, hnext]
    rw [ih (i + 1) (by omega)]
    have hfun : ((fun j => a.get (i + j)) ∘ Nat.succ) = fun j => a.get (i + 1 + j) := by
      funext j
      simp only [Function.comp]
      congr 1
      omega
    simp only [List.range_succ_eq_map, List.map_cons, List.map_map, hfun]
    rw [Prod.mk.injEq]
    exact ⟨by norm_num, by rw [show i + (k + 1) = i + 1 + k from by omega]⟩

theorem into_run_spec (a : ArrayF64) : ∀ (k i : Nat), i + k ≤ a.len →
    IntoIter.run { array := a, idx := i } k =
    ((List.range k).map (fun j => a.get (i + j)), { array := a, idx := i + k }) := by
  intro k
  induction k with
  | zero =>
    intro i h
    simp [IntoIter.run]
  | succ k ih =>
    intro i h
    have hnext : IntoIter.next { array := a, idx := i } =
        (some (a.get i), { array := a, idx := i + 1 }) := by
      simp only [IntoIter.next]
      rw [if_neg (by omega : ¬a.len ≤ i)]
    simp only [IntoIter.run, hnext]
    rw [ih (i + 1) (by omega)]
    have hfun : ((fun j => a.get (i + j)) ∘ Nat.succ) = fun j => a.get (i + 1 + j) := by
      funext j
      simp only [Function.comp]
      congr 1
      omega
    simp only [List.range_succ_eq_map, List.map_cons, List.map_map, hfun]
    rw [Prod.mk.injEq]
    exact ⟨by norm_num, by rw [show i + (k + 1) = i + 1 + k from by omega]⟩

theorem iter_collect_spec (a : ArrayF64) :
    a.iter.collect = (List.range a.len).map a.get_ref := by
  rw [ArrayF64.iter, Iter.collect]
  simp only [Nat.sub_zero]
  rw [iter_run_spec a a.len 0 (by omega)]
  simp

theorem into_collect_spec (a : ArrayF64) :
    (IntoIter.new a).collect = (List.range a.len).map a.get := by
  rw [IntoIter.new, IntoIter.collect]
  simp only [Nat.sub_zero]
  rw [into_run_spec a a.len 0 (by omega)]
  simp

theorem map_getD_range (l : List F64) :
    (List.range l.length).map (fun i => l.getD i none) = l := by
  apply List.ext_getElem
  · simp
  · intro i h1 h2
    simp only [List.getElem_map, List.getElem_range]
    rw [getD_eq_getElem_at l i h2]
    rfl

theorem toVec_fsi (input : List F64) : toVec (from_sized_iter input) = input := by
  have hget : (from_sized_iter input).get = fun i => input.getD i none :=
    funext (fun i => fsi_get input i)
  rw [toVec, into_collect_spec, fsi_len, hget]
  exact map_getD_range input

theorem clone_eq (a : ArrayF64) :
    a.clone = from_sized_iter ((List.range a.len).map a.get_ref) := by
  rw [ArrayF64.clone, iter_collect_spec]

/-! ### Equality -/

theorem bitAt_true_of_countNone_zero (l : List F64) (i : Nat) (hi : i < l.length)
    (h : countNone l = 0) : bitAt l i = true := by
  rw [bitAt]
  have hfalse := getD_isNone_false l i hi h
  rcases hx : l.getD i none with _ | w
  · rw [hx] at hfalse
    simp at hfalse
  · rfl

theorem fsi_compare_values (x y : List F64) :
    ArrayF64.compare_values (from_sized_iter x) (from_sized_iter y) =
    (List.range x.length).all (fun i => beqF64Opt (x.getD i none) (y.getD i none)) := by
  rw [ArrayF64.compare_values, fsi_len]
  have hfun : (fun idx => beqF64Opt ((from_sized_iter x).get idx) ((from_sized_iter y).get idx)) =
      fun idx => beqF64Opt (x.getD idx none) (y.getD idx none) :=
    funext fun idx => by rw [fsi_get, fsi_get]
  rw [hfun]

theorem byteSpec_congr (x y : List F64) (hlen : x.length = y.length)
    (hrow : ∀ i, i < x.length → bitAt x i = bitAt y i) (j : Nat) :
    byteSpec x j = byteSpec y j := by
  have hcomp : ∀ k, bitAt x (8 * j + k) = bitAt y (8 * j + k) := by
    intro k
    by_cases hk : 8 * j + k < x.length
    · exact hrow _ hk
    · rw [bitAt_eq_false x _ (by omega), bitAt_eq_false y _ (by omega)]
  have h0 : bitAt x (8 * j) = bitAt y (8 * j) := by
    have := hcomp 0
    simpa using this
  rw [byteSpec, byteSpec, h0, hcomp 1, hcomp 2, hcomp 3, hcomp 4, hcomp 5, hcomp 6, hcomp 7]

theorem countNone_congr (x : List F64) : ∀ (y : List F64), x.length = y.length →
    (∀ i, i < x.length → bitAt x i = bitAt y i) → countNone x = countNone y := by
  induction x with
  | nil =>
    intro y hlen _
    have : y = [] := List.length_eq_zero.mp hlen.symm
    rw [this]
  | cons a xs ih =>
    intro y hlen hrow
    rcases y with _ | ⟨b, ys⟩
    · simp at hlen
    · have h0 : a.isSome = b.isSome := by
        have := hrow 0 (by simp)
        simpa [bitAt] using this
      have htail : ∀ i, i < xs.length → bitAt xs i = bitAt ys i := by
        intro i hi
        have := hrow (i + 1) (by simp; omega)
        simpa [bitAt, List.getD_cons_succ] using this
      have hnone : a.isNone = b.isNone := by
        cases a <;> cases b <;> simp_all
      rw [countNone, countNone, List.countP_cons, List.countP_cons]
      have hrec := ih ys (by simpa using hlen) htail
      rw [countNone, countNone] at hrec
      rw [hrec]
      simp only [hnone]

theorem fsi_val_ptr_congr (x y : List F64) (hlen : x.length = y.length)
    (hrow : ∀ i, i < x.length → bitAt x i = bitAt y i) :
    (from_sized_iter x).val_ptr = (from_sized_iter y).val_ptr := by
  have hc := countNone_congr x y hlen hrow
  rw [fsi_val_ptr, fsi_val_ptr, ← hc, ← hlen]
  by_cases h0 : countNone x = 0
  · rw [if_pos h0, if_pos h0]
  · rw [if_neg h0, if_neg h0,
      show byteSpec x = byteSpec y from funext (byteSpec_congr x y hlen hrow)]

theorem fsi_compare_validity_iff (x y : List F64) (hlen : x.length = y.length) :
    (ArrayF64.compare_validity (from_sized_iter x) (from_sized_iter y) = true) ↔
    ∀ i, i < x.length → bitAt x i = bitAt y i := by
  constructor
  · intro h i hi
    by_cases h0x : countNone x = 0 <;> by_cases h0y : countNone y = 0
    · rw [bitAt_true_of_countNone_zero x i hi h0x,
        bitAt_true_of_countNone_zero y i (by omega) h0y]
    · simp [ArrayF64.compare_validity, fsi_val_ptr, h0x, h0y] at h
    · simp [ArrayF64.compare_validity, fsi_val_ptr, h0x, h0y] at h
    · simp only [ArrayF64.compare_validity, fsi_val_ptr, if_neg h0x, if_neg h0y, fsi_len] at h
      have hj : i / 8 < (x.length + 7) / 8 := by omega
      have hjy : i / 8 < (y.length + 7) / 8 := by omega
      have hbyte := List.all_eq_true.mp h (i / 8) (List.mem_range.mpr hj)
      rw [getD_map_range _ _ _ _ hj, getD_map_range _ _ _ _ hjy] at hbyte
      have hbyte2 : byteSpec x (i / 8) = byteSpec y (i / 8) := by
        simpa using hbyte
      rw [← byteSpec_testBit x i, ← byteSpec_testBit y i, hbyte2]
  · intro hrow
    have hvp := fsi_val_ptr_congr x y hlen hrow
    rw [ArrayF64.compare_validity, ← hvp]
    rcases hv : (from_sized_iter x).val_ptr with _ | buf <;> simp [List.all_eq_true]

theorem fsi_eq_iff (x y : List F64) :
    (ArrayF64.eq (from_sized_iter x) (from_sized_iter y) = true) ↔
    (x.length = y.length ∧ countNone x = countNone y ∧
      (∀ i, i < x.length → bitAt x i = bitAt y i) ∧
      ∀ i, i < x.length → beqF64Opt (x.getD i none) (y.getD i none) = true) := by
  rw [ArrayF64.eq]
  simp only [Bool.and_eq_true, beq_iff_eq, fsi_len, fsi_nulls]
  constructor
  · rintro ⟨⟨⟨hlen, hnull⟩, hval⟩, hvals⟩
    refine ⟨hlen, hnull, (fsi_compare_validity_iff x y hlen).mp hval, ?_⟩
    intro i hi
    rw [fsi_compare_values] at hvals
    exact List.all_eq_true.mp hvals i (List.mem_range.mpr hi)
  · rintro ⟨hlen, hnull, hrow, hvals⟩
    refine ⟨⟨⟨hlen, hnull⟩, (fsi_compare_validity_iff x y hlen).mpr hrow⟩, ?_⟩
    rw [fsi_compare_values, List.all_eq_true]
    intro i hmem
    exact hvals i (List.mem_range.mp hmem)

theorem fsi_eq_refl (x : List F64) (h : some F64V.nan ∉ x) :
    ArrayF64.eq (from_sized_iter x) (from_sized_iter x) = true := by
  rw [fsi_eq_iff]
  refine ⟨rfl, rfl, fun i hi => rfl, fun i hi => ?_⟩
  rcases hx : x.getD i none with _ | w
  · rfl
  · have hmem : x.getD i none ∈ x := by
      rw [getD_eq_getElem_at x i hi]
      exact x.get_mem i hi
    rw [hx] at hmem
    rcases w with _ | v
    · exact absurd hmem h
    · simp [beqF64Opt, fbeq]

theorem fsi_eq_nan_self (x : List F64) (h : some F64V.nan ∈ x) :
    ArrayF64.eq (from_sized_iter x) (from_sized_iter x) = false := by
  obtain ⟨n, hn, hval⟩ := List.getElem_of_mem h
  have hx : x.getD n none = some F64V.nan := by
    rw [getD_eq_getElem_at x n hn]
    exact hval
  have hcv : ArrayF64.compare_values (from_sized_iter x) (from_sized_iter x) = false := by
    rw [fsi_compare_values, List.all_eq_false]
    refine ⟨n, List.mem_range.mpr hn, ?_⟩
    intro hcontra
    simp only [hx] at hcontra
    simp [beqF64Opt, fbeq] at hcontra
  rw [ArrayF64.eq, hcv]
  simp

theorem beqF64Opt_symm (o p : F64) : beqF64Opt o p = beqF64Opt p o := by
  rcases o with _ | a <;> rcases p with _ | b <;> try rfl
  rcases a with _ | va <;> rcases b with _ | vb <;> simp only [beqF64Opt, fbeq]
  by_cases h : va = vb
  · rw [h]
  · rw [beq_eq_false_iff_ne.mpr h, beq_eq_false_iff_ne.mpr (Ne.symm h)]

theorem fsi_eq_symm (x y : List F64) :
    ArrayF64.eq (from_sized_iter x) (from_sized_iter y) =
    ArrayF64.eq (from_sized_iter y) (from_sized_iter x) := by
  rw [Bool.eq_iff_iff, fsi_eq_iff, fsi_eq_iff]
  constructor
  · rintro ⟨hlen, hnull, hrow, hvals⟩
    refine ⟨hlen.symm, hnull.symm, fun i hi => (hrow i (by omega)).symm, fun i hi => ?_⟩
    rw [beqF64Opt_symm]
    exact hvals i (by omega)
  · rintro ⟨hlen, hnull, hrow, hvals⟩
    refine ⟨hlen.symm, hnull.symm, fun i hi => (hrow i (by omega)).symm, fun i hi => ?_⟩
    rw [beqF64Opt_symm]
    exact hvals i (by omega)

/-! ### Further helper lemmas -/

theorem byteSpec_lt (input : List F64) (j : Nat) : byteSpec input j < 256 := by
  rw [byteSpec]
  apply byteFromBits_lt

theorem byteSpec_testBit_at (input : List F64) (j k : Nat) (hk : k < 8) :
    (byteSpec input j).testBit k = bitAt input (8 * j + k) := by
  rw [byteSpec, byte_testBit k hk]
  have hcases : k = 0 ∨ k = 1 ∨ k = 2 ∨ k = 3 ∨ k = 4 ∨ k = 5 ∨ k = 6 ∨ k = 7 := by omega
  rcases hcases with h | h | h | h | h | h | h | h <;> subst h <;> simp [bitSelect]

theorem and_shift_beq_zero (x k : Nat) : ((x &&& (1 <<< k)) == 0) = !x.testBit k := by
  rw [Nat.one_shiftLeft, Nat.and_two_pow]
  cases h : x.testBit k <;> simp [h]

theorem countNone_replicate (N : Nat) : countNone (List.replicate N (none : F64)) = N := by
  rw [countNone]
  simp [List.countP_replicate]

theorem bytes_iff_bits (x y : List F64) (hlen : x.length = y.length) :
    (∀ j, byteSpec x j = byteSpec y j) ↔ (∀ i, i < x.length → bitAt x i = bitAt y i) := by
  constructor
  · intro hb i _
    rw [← byteSpec_testBit x i, ← byteSpec_testBit y i, hb]
  · intro hr j
    exact byteSpec_congr x y hlen hr j

/-- The buffer-presence invariant of the spec: `0 ≤ nulls ≤ len`, the
values buffer is present iff some row is valid, the validity buffer is
present iff some row is null, and a zero-length array owns no buffer. -/
def presenceInv (a : ArrayF64) : Prop :=
  a.nulls ≤ a.len ∧ (a.ptr.isSome = true ↔ a.nulls < a.len) ∧
  (a.val_ptr.isSome = true ↔ 0 < a.nulls) ∧ (a.len = 0 → a.ptr = none ∧ a.val_ptr = none)

theorem fsi_presenceInv (input : List F64) : presenceInv (from_sized_iter input) := by
  rw [presenceInv, fsi_len, fsi_nulls, fsi_ptr, fsi_val_ptr]
  have hle := countNone_le input
  refine ⟨hle, ?_, ?_, ?_⟩
  · by_cases h : countNone input = input.length
    · rw [if_pos h]
      simp
      omega
    · rw [if_neg h]
      simp
      omega
  · by_cases h : countNone input = 0
    · rw [if_pos h]
      simp [h]
    · rw [if_neg h]
      simp
      omega
  · intro h0
    have h1 : countNone input = 0 := by omega
    rw [if_pos (by omega : countNone input = input.length), if_pos h1]
    exact ⟨rfl, rfl⟩

/-! ### The allocation model (`ArrayF64::allocate`) -/

/-- The `isize::MAX` bound of a 64-bit platform. -/
def ISIZE_MAX : Nat := 2 ^ 63 - 1

/-- `Layout::from_size_align(size, 8)` succeeds iff `size`, rounded up to
the alignment, does not overflow `isize` (Rust's documented condition);
otherwise the source's `.expect` aborts. -/
def layout_ok (size : Nat) : Bool := decide ((size + 7) / 8 * 8 ≤ ISIZE_MAX)

/-- The two fatal conditions of `ArrayF64::allocate`: a `Layout` whose size
overflows `isize::MAX` (the `.expect` panics), and a null return from the
allocator (`handle_alloc_error` aborts). -/
inductive AllocError where
  | layoutOverflow : AllocError
  | allocFailed : AllocError
deriving DecidableEq, Repr

/-- `ArrayF64::allocate(len)` under an allocator oracle `alloc` that says
whether a request of a given byte size succeeds.  The values buffer
(`len * 8` bytes) is requested first, then the validity buffer
(`(len + 7) / 8` bytes).  A fatal abort is modelled as an error value.
The size arithmetic is modelled without wrapping, matching
overflow-checked builds in which an overflowing `len * 8` is itself a
fatal panic. -/
def allocate (alloc : Nat → Bool) (len : Nat) : Except AllocError Unit :=
  let values_size := len * 8
  if layout_ok values_size = false then Except.error AllocError.layoutOverflow
  else if alloc values_size = false then Except.error AllocError.allocFailed
  else
    let validity_size := (len + 7) / 8
    if layout_ok validity_size = false then Except.error AllocError.layoutOverflow
    else if alloc validity_size = false then Except.error AllocError.allocFailed
    else Except.ok ()

/-- `from_sized_iter` with the allocation step made explicit: the
`len == 0` early return precedes `allocate`; on allocation success the
construction proceeds exactly as `from_sized_iter`. -/
def from_sized_iterE (alloc : Nat → Bool) (input : List F64) : Except AllocError ArrayF64 :=
  if input.length = 0 then
    Except.ok { ptr := none, val_ptr := none, len := 0, nulls := 0 }
  else
    match allocate alloc input.length with
    | Except.error e => Except.error e
    | Except.ok _ => Except.ok (from_sized_iter input)

/-- Whether a construction outcome is the fatal abort. -/
def isFatal {α : Type} : Except AllocError α → Bool
  | Except.error _ => true
  | Except.ok _ => false

/-! ### The type classifier (union layer) -/

/-- Modelled from the spec: the type tags of the union/type-inference
layer (`Null`, `Boolean`, `Integer`, `Float`, `Text`); the classifier's
source module is not part of `src/`. -/
inductive TypeTag where
  | Null : TypeTag
  | Boolean : TypeTag
  | Integer : TypeTag
  | Float : TypeTag
  | Text : TypeTag
deriving DecidableEq, Repr

/-- Value of a non-empty all-digit token. -/
def digitsToNat (cs : List Char) : Nat :=
  cs.foldl (fun a c => 10 * a + (c.toNat - '0'.toNat)) 0

/-- Modelled from the spec: parse a non-empty run of decimal digits. -/
def parseNatDigits (cs : List Char) : Option Nat :=
  if cs.isEmpty then none
  else if cs.all Char.isDigit then some (digitsToNat cs) else none

/-- Modelled from the spec: parse an optionally signed decimal integer. -/
def parseSignedInt (cs : List Char) : Option Int :=
  match cs with
  | '+' :: rest => (parseNatDigits rest).map (fun n => (n : Int))
  | '-' :: rest => (parseNatDigits rest).map (fun n => -(n : Int))
  | _ => (parseNatDigits cs).map (fun n => (n : Int))

/-- Modelled from the spec: the token parses as a signed integer within
the 64-bit pointer-width range. -/
def parsesIsize (s : String) : Bool :=
  match parseSignedInt s.toList with
  | some n => decide (-(2 ^ 63 : Int) ≤ n) && decide (n ≤ 2 ^ 63 - 1)
  | none => false

/-- Drop one leading sign character. -/
def stripSign : List Char → List Char
  | '+' :: rest => rest
  | '-' :: rest => rest
  | cs => cs

/-- Modelled from the spec: the digits-and-dot part of a decimal
floating-point literal (`digits`, `digits.digits?`, or `.digits`). -/
def isMantissa (cs : List Char) : Bool :=
  let ip := cs.takeWhile Char.isDigit
  let rest := cs.drop ip.length
  match rest with
  | [] => !ip.isEmpty
  | '.' :: frac => frac.all Char.isDigit && (!ip.isEmpty || !frac.isEmpty)
  | _ => false

/-- Modelled from the spec: an exponent part (optional sign, digits). -/
def isExpPart (cs : List Char) : Bool :=
  let ds := stripSign cs
  !ds.isEmpty && ds.all Char.isDigit

/-- Modelled from the spec: the token parses as a finite or infinite
decimal floating-point literal (optional sign; a mantissa with optional
`e`/`E` exponent, or an infinity literal). -/
def isFloatTok (s : String) : Bool :=
  let cs := stripSign s.toList
  if cs = ['i', 'n', 'f'] ∨ cs = ['i', 'n', 'f', 'i', 'n', 'i', 't', 'y'] then true
  else
    let mant := cs.takeWhile (fun c => !(c == 'e') && !(c == 'E'))
    let rest := cs.drop mant.length
    match rest with
    | [] => isMantissa mant
    | _ :: ex => isMantissa mant && isExpPart ex

/-- Modelled from the spec: the type classifier of the union layer, a pure
total function with fixed first-match precedence — empty or `null` text,
then the boolean literals, then pointer-width integers, then decimal
floats, then arbitrary text.  Its source module is not part of `src/`. -/
def classify (s : String) : TypeTag :=
  if s = "" ∨ s = "null" then TypeTag.Null
  else if s = "true" ∨ s = "false" then TypeTag.Boolean
  else if parsesIsize s then TypeTag.Integer
  else if isFloatTok s then TypeTag.Float
  else TypeTag.Text

theorem allocate_fatal (alloc : Nat → Bool) (len : Nat) :
    isFatal (allocate alloc len) =
    (!layout_ok (len * 8) || !alloc (len * 8) ||
      !layout_ok ((len + 7) / 8) || !alloc ((len + 7) / 8)) := by
  by_cases h1 : layout_ok (len * 8) <;> by_cases h2 : alloc (len * 8) <;>
    by_cases h3 : layout_ok ((len + 7) / 8) <;> by_cases h4 : alloc ((len + 7) / 8) <;>
    simp [allocate, h1, h2, h3, h4, isFatal]

/-! ### Claim theorems -/

/-- C1: for every constructed `ArrayF64` and every index, `get` (and
`get_ref`) return `None` on an out-of-range index; on an in-range index,
`get` returns `None` when the row is null and otherwise a copy of the
stored input value (in particular `Some`); and `is_null` agrees with
`get(idx).is_none()` on every in-range index.  `get` never panics: it is a
total function of the model. -/
theorem claim_c1_get_contract (input : List F64) (idx : Nat) :
    ((from_sized_iter input).len ≤ idx →
      (from_sized_iter input).get idx = none ∧ (from_sized_iter input).get_ref idx = none) ∧
    (idx < (from_sized_iter input).len →
      ((from_sized_iter input).is_null idx = some true → (from_sized_iter input).get idx = none) ∧
      ((from_sized_iter input).is_null idx = some false →
        (from_sized_iter input).get idx = input.getD idx none ∧
        ((from_sized_iter input).get idx).isSome = true) ∧
      (from_sized_iter input).is_null idx = some ((from_sized_iter input).get idx).isNone) := by
  constructor
  · intro h
    rw [fsi_len] at h
    constructor
    · rw [fsi_get, List.getD_eq_getElem?_getD, List.getElem?_eq_none h]
      rfl
    · rw [fsi_get_ref, List.getD_eq_getElem?_getD, List.getElem?_eq_none h]
      rfl
  · intro h
    rw [fsi_len] at h
    have hn := fsi_is_null input idx h
    have hg := fsi_get input idx
    refine ⟨?_, ?_, ?_⟩
    · intro ht
      rw [hn] at ht
      injection ht with ht
      rw [hg, Option.isNone_iff_eq_none.mp ht]
    · intro hf
      rw [hn] at hf
      injection hf with hf
      refine ⟨hg, ?_⟩
      rw [hg]
      rcases hx : input.getD idx none with _ | w
      · rw [hx] at hf
        simp at hf
      · rfl
    · rw [hn, hg]

theorem claim_c1_witness :
    (from_sized_iter [some (F64V.num 5), none]).is_null 0 =
      some ((from_sized_iter [some (F64V.num 5), none]).get 0).isNone :=
  ((claim_c1_get_contract [some (F64V.num 5), none] 0).2 (by decide)).2.2

/-- C2: every public constructor (`from_sized_iter`, `from_vec`, `new`,
the all-valid `From<Vec<f64>>` conversion, and `clone`) establishes the
buffer-presence invariant: `0 ≤ nulls ≤ len`, values buffer present iff
`nulls < len`, validity buffer present iff `nulls > 0`, and a zero-length
array owns neither buffer.  The array is immutable after construction, so
the invariant is preserved by every operation. -/
theorem claim_c2_buffer_presence (l : List F64) (v : List F64V) (a : ArrayF64) :
    presenceInv (from_sized_iter l) ∧ presenceInv (from_vec l) ∧
    presenceInv (ArrayF64.new l) ∧ presenceInv (ArrayF64.fromValues v) ∧
    presenceInv a.clone := by
  refine ⟨fsi_presenceInv l, fsi_presenceInv l, fsi_presenceInv l, fsi_presenceInv _, ?_⟩
  rw [clone_eq]
  exact fsi_presenceInv _

theorem claim_c2_witness : presenceInv (from_vec [some (F64V.num 1), none]) :=
  (claim_c2_buffer_presence [some (F64V.num 1), none] [] (from_vec [])).2.1

/-- C3: converting a NaN-free sequence of optional values into an array
(via `from_vec` or `new`) and back (`Vec<F64>::from`, i.e. draining the
consuming iterator) returns the original sequence element for element. -/
theorem claim_c3_round_trip (l : List F64) (h : some F64V.nan ∉ l) :
    toVec (from_vec l) = l ∧ toVec (ArrayF64.new l) = l :=
  ⟨toVec_fsi l, toVec_fsi l⟩

theorem claim_c3_witness :
    some F64V.nan ∉ [some (F64V.num 1), none, some (F64V.num 2)] ∧
    toVec (from_vec [some (F64V.num 1), none, some (F64V.num 2)]) =
      [some (F64V.num 1), none, some (F64V.num 2)] :=
  ⟨by decide, (claim_c3_round_trip [some (F64V.num 1), none, some (F64V.num 2)] (by decide)).1⟩

/-- C4: equality of constructed arrays holds iff the lengths match, the
null counts match, every validity byte matches, and every row's decoded
value matches under `f64` native equality; consequently equality is
reflexive for NaN-free arrays, false for an array containing NaN compared
with itself, symmetric, and it distinguishes the spec's example arrays
differing in row order, null positions, and length. -/
theorem claim_c4_equality (x y : List F64) :
    ((ArrayF64.eq (from_sized_iter x) (from_sized_iter y) = true) ↔
      (x.length = y.length ∧ countNone x = countNone y ∧
        (∀ j, byteSpec x j = byteSpec y j) ∧
        ∀ i, i < x.length → beqF64Opt (x.getD i none) (y.getD i none) = true)) ∧
    (some F64V.nan ∉ x → ArrayF64.eq (from_sized_iter x) (from_sized_iter x) = true) ∧
    (some F64V.nan ∈ x → ArrayF64.eq (from_sized_iter x) (from_sized_iter x) = false) ∧
    ArrayF64.eq (from_sized_iter x) (from_sized_iter y) =
      ArrayF64.eq (from_sized_iter y) (from_sized_iter x) ∧
    ArrayF64.eq (from_vec [some (F64V.num 0), some (F64V.num 2), some (F64V.num 4)])
      (from_vec [some (F64V.num 4), some (F64V.num 0), some (F64V.num 2)]) = false ∧
    ArrayF64.eq (from_vec [some (F64V.num 1), none]) (from_vec [none, some (F64V.num 1)]) =
      false ∧
    ArrayF64.eq (from_vec [some (F64V.num 1)])
      (from_vec [some (F64V.num 1), some (F64V.num 1)]) = false := by
  refine ⟨?_, fsi_eq_refl x, fsi_eq_nan_self x, fsi_eq_symm x y, by decide, by decide, by decide⟩
  rw [fsi_eq_iff]
  constructor
  · rintro ⟨hlen, hnull, hrow, hvals⟩
    exact ⟨hlen, hnull, (bytes_iff_bits x y hlen).mpr hrow, hvals⟩
  · rintro ⟨hlen, hnull, hbytes, hvals⟩
    exact ⟨hlen, hnull, (bytes_iff_bits x y hlen).mp hbytes, hvals⟩

theorem claim_c4_witness :
    ArrayF64.eq (from_sized_iter [some (F64V.num 3), none])
      (from_sized_iter [some (F64V.num 3), none]) = true :=
  (claim_c4_equality [some (F64V.num 3), none] []).2.1 (by decide)

/-- C5: `is_null` panics (returns `none` in the model) iff the index is
out of range; on an in-range index it returns `false` when no validity
buffer exists, and otherwise the negation of bit `idx % 8` of validity
byte `idx / 8`. -/
theorem claim_c5_is_null_contract (a : ArrayF64) (idx : Nat) :
    (a.is_null idx = none ↔ a.len ≤ idx) ∧
    (idx < a.len → a.val_ptr = none → a.is_null idx = some false) ∧
    (∀ buf, idx < a.len → a.val_ptr = some buf →
      a.is_null idx = some (!(buf.getD (idx / 8) 0).testBit (idx % 8))) := by
  refine ⟨?_, ?_, ?_⟩
  · rw [ArrayF64.is_null]
    by_cases h : idx < a.len
    · rw [if_pos h]
      constructor
      · intro hc
        exact Option.noConfusion hc
      · intro hc
        omega
    · rw [if_neg h]
      constructor
      · intro _
        omega
      · intro _
        rfl
  · intro h hv
    rw [ArrayF64.is_null, if_pos h]
    simp [ArrayF64.is_null_unchecked, hv]
  · intro buf h hv
    rw [ArrayF64.is_null, if_pos h]
    simp only [ArrayF64.is_null_unchecked, hv]
    rw [and_shift_beq_zero]

theorem claim_c5_witness :
    (ArrayF64.mk (some [F64V.num 1, F64V.num 2]) (some [2]) 2 1).is_null 0 =
      some (!(([2] : List Nat).getD 0 0).testBit 0) :=
  (claim_c5_is_null_contract (ArrayF64.mk (some [F64V.num 1, F64V.num 2]) (some [2]) 2 1) 0).2.2
    [2] (by decide) rfl

/-- C6: an array built from `N` `None`s has no values buffer, length `N`,
`is_null = true` on every in-range index, and its consuming iteration
yields exactly `N` `None`s. -/
theorem claim_c6_all_null (N : Nat) :
    (from_sized_iter (List.replicate N none)).ptr = none ∧
    (from_sized_iter (List.replicate N none)).len = N ∧
    (∀ idx, idx < N → (from_sized_iter (List.replicate N none)).is_null idx = some true) ∧
    toVec (from_sized_iter (List.replicate N none)) = List.replicate N none := by
  have hc : countNone (List.replicate N none) = N := countNone_replicate N
  have hlen : (List.replicate N (none : F64)).length = N := List.length_replicate N none
  refine ⟨?_, ?_, ?_, toVec_fsi _⟩
  · rw [fsi_ptr, if_pos (by rw [hc, hlen])]
  · rw [fsi_len, hlen]
  · intro idx hidx
    rw [fsi_is_null _ _ (by rw [hlen]; exact hidx)]
    have hgd : (List.replicate N (none : F64)).getD idx none = none := by
      rw [List.getD_eq_getElem?_getD, List.getElem?_replicate]
      simp [hidx]
    rw [hgd]
    rfl

theorem claim_c6_witness :
    (from_sized_iter (List.replicate 5 (none : F64))).is_null 2 = some true :=
  (claim_c6_all_null 5).2.2.1 2 (by decide)

/-- C7: for each of the three iterators, `k ≤ len` calls of `next` from a
fresh iterator yield exactly the first `k` rows in ascending order (each
obtained via `get_ref` for the borrowing iterator and `get` for the
copying and consuming ones) and leave the position at `k`; at that point
`size_hint`, `ExactSizeIterator::len` and `count` all equal `len - k`, the
number of rows not yet yielded; and once the position reaches `len`,
`next` returns `None` (the iterator terminates). -/
theorem claim_c7_iterators (a : ArrayF64) (k : Nat) (hk : k ≤ a.len) :
    (Iter.run { array := a, idx := 0 } k =
        ((List.range k).map a.get_ref, { array := a, idx := k }) ∧
      Iter.size_hint { array := a, idx := k } = (a.len - k, some (a.len - k)) ∧
      Iter.len { array := a, idx := k } = a.len - k ∧
      Iter.count { array := a, idx := k } = a.len - k ∧
      (k = a.len → (Iter.next { array := a, idx := k }).1 = none)) ∧
    (CopiedIter.run { array := a, idx := 0 } k =
        ((List.range k).map a.get, { array := a, idx := k }) ∧
      CopiedIter.size_hint { array := a, idx := k } = (a.len - k, some (a.len - k)) ∧
      CopiedIter.len { array := a, idx := k } = a.len - k ∧
      CopiedIter.count { array := a, idx := k } = a.len - k ∧
      (k = a.len → (CopiedIter.next { array := a, idx := k }).1 = none)) ∧
    (IntoIter.run { array := a, idx := 0 } k =
        ((List.range k).map a.get, { array := a, idx := k }) ∧
      IntoIter.size_hint { array := a, idx := k } = (a.len - k, some (a.len - k)) ∧
      IntoIter.len { array := a, idx := k } = a.len - k ∧
      IntoIter.count { array := a, idx := k } = a.len - k ∧
      (k = a.len → (IntoIter.next { array := a, idx := k }).1 = none)) := by
  refine ⟨⟨?_, rfl, rfl, rfl, ?_⟩, ⟨?_, rfl, rfl, rfl, ?_⟩, ⟨?_, rfl, rfl, rfl, ?_⟩⟩
  · have h := iter_run_spec a k 0 (by omega)
    simpa using h
  · intro hke
    subst hke
    simp [Iter.next]
  · have h := copied_run_spec a k 0 (by omega)
    simpa using h
  · intro hke
    subst hke
    simp [CopiedIter.next]
  · have h := into_run_spec a k 0 (by omega)
    simpa using h
  · intro hke
    subst hke
    simp [IntoIter.next]

theorem claim_c7_witness :
    IntoIter.run { array := from_sized_iter [some (F64V.num 9), none], idx := 0 } 2 =
      ((List.range 2).map (from_sized_iter [some (F64V.num 9), none]).get,
        { array := from_sized_iter [some (F64V.num 9), none], idx := 2 }) :=
  ((claim_c7_iterators (from_sized_iter [some (F64V.num 9), none]) 2 (by decide)).2.2).1

/-- C8: with `len > 0`, construction is fatal exactly when a requested
buffer byte size (`len * 8` for values, `ceil(len / 8)` for validity)
fails the `Layout` bound or the allocator refuses it; no other
construction path aborts, and a non-fatal construction returns exactly the
array `from_sized_iter` builds. -/
theorem claim_c8_allocation (alloc : Nat → Bool) (input : List F64) :
    (isFatal (from_sized_iterE alloc input) =
      (decide (input.length ≠ 0) &&
        (!layout_ok (input.length * 8) || !alloc (input.length * 8) ||
          !layout_ok ((input.length + 7) / 8) || !alloc ((input.length + 7) / 8)))) ∧
    (isFatal (from_sized_iterE alloc input) = false →
      from_sized_iterE alloc input = Except.ok (from_sized_iter input)) := by
  constructor
  · by_cases h0 : input.length = 0
    · simp [from_sized_iterE, h0, isFatal]
    · have ha := allocate_fatal alloc input.length
      rcases hx : allocate alloc input.length with e | u
      · rw [hx] at ha
        simp [from_sized_iterE, h0, hx, isFatal, ← ha]
      · rw [hx] at ha
        simp [from_sized_iterE, h0, hx, isFatal, ← ha]
  · intro hok
    by_cases h0 : input.length = 0
    · have h1 : input = [] := List.length_eq_zero.mp h0
      subst h1
      rfl
    · rcases hx : allocate alloc input.length with e | u
      · simp [from_sized_iterE, h0, hx, isFatal] at hok
      · simp [from_sized_iterE, h0, hx]

theorem claim_c8_witness :
    from_sized_iterE (fun _ => true) [some (F64V.num 1)] =
      Except.ok (from_sized_iter [some (F64V.num 1)]) :=
  (claim_c8_allocation (fun _ => true) [some (F64V.num 1)]).2 (by decide)

/-- C9: the type classifier is a total pure function evaluated with fixed
first-match precedence: empty or `null` text gives `Null`; exactly `true`
or `false` gives `Boolean`; a token parsing as a pointer-width signed
integer gives `Integer`; a token parsing as a finite or infinite decimal
float literal gives `Float`; everything else gives `Text`.  It always
returns exactly one of the five tags, and it classifies the spec's example
tokens as stated. -/
theorem claim_c9_classifier :
    (∀ s : String, s = "" ∨ s = "null" → classify s = TypeTag.Null) ∧
    (∀ s : String, s = "true" ∨ s = "false" → classify s = TypeTag.Boolean) ∧
    (∀ s : String, ¬(s = "" ∨ s = "null") → ¬(s = "true" ∨ s = "false") →
      parsesIsize s = true → classify s = TypeTag.Integer) ∧
    (∀ s : String, ¬(s = "" ∨ s = "null") → ¬(s = "true" ∨ s = "false") →
      parsesIsize s = false → isFloatTok s = true → classify s = TypeTag.Float) ∧
    (∀ s : String, ¬(s = "" ∨ s = "null") → ¬(s = "true" ∨ s = "false") →
      parsesIsize s = false → isFloatTok s = false → classify s = TypeTag.Text) ∧
    (∀ s : String, classify s = TypeTag.Null ∨ classify s = TypeTag.Boolean ∨
      classify s = TypeTag.Integer ∨ classify s = TypeTag.Float ∨
      classify s = TypeTag.Text) ∧
    ["one", "1", "1.00", "", "-14", "false", "null", "Bublé"].map classify =
      [TypeTag.Text, TypeTag.Integer, TypeTag.Float, TypeTag.Null, TypeTag.Integer,
        TypeTag.Boolean, TypeTag.Null, TypeTag.Text] := by
  refine ⟨?_, ?_, ?_, ?_, ?_, ?_, by decide⟩
  · intro s h
    rcases h with h | h <;> subst h <;> decide
  · intro s h
    rcases h with h | h <;> subst h <;> decide
  · intro s h1 h2 h3
    rw [classify, if_neg h1, if_neg h2, if_pos h3]
  · intro s h1 h2 h3 h4
    rw [classify, if_neg h1, if_neg h2,
      if_neg (by simp [h3] : ¬parsesIsize s = true), if_pos h4]
  · intro s h1 h2 h3 h4
    rw [classify, if_neg h1, if_neg h2,
      if_neg (by simp [h3] : ¬parsesIsize s = true),
      if_neg (by simp [h4] : ¬isFloatTok s = true)]
  · intro s
    by_cases c1 : s = "" ∨ s = "null"
    · simp [classify, c1]
    · by_cases c2 : s = "true" ∨ s = "false"
      · simp [classify, c1, c2]
      · by_cases c3 : parsesIsize s
        · simp [classify, c1, c2, c3]
        · by_cases c4 : isFloatTok s
          · simp [classify, c1, c2, c3, c4]
          · simp [classify, c1, c2, c3, c4]

theorem claim_c9_witness : classify "-14" = TypeTag.Integer :=
  claim_c9_classifier.2.2.1 "-14" (by decide) (by decide) (by decide)

/-- C10: in a constructed array's validity buffer, every bit of the final
byte at a position at or past `len % 8` is zero; hence equal-length inputs
with identical per-row validity get byte-identical validity buffers, and
the byte-exact `compare_validity` agrees exactly with per-row validity
comparison. -/
theorem claim_c10_validity_bytes (x y : List F64) :
    (∀ buf, (from_sized_iter x).val_ptr = some buf →
      ∀ k, x.length % 8 ≤ k → (buf.getD (x.length / 8) 0).testBit k = false) ∧
    (x.length = y.length → (∀ i, i < x.length → bitAt x i = bitAt y i) →
      (from_sized_iter x).val_ptr = (from_sized_iter y).val_ptr) ∧
    (x.length = y.length →
      ((ArrayF64.compare_validity (from_sized_iter x) (from_sized_iter y) = true) ↔
        ∀ i, i < x.length → bitAt x i = bitAt y i)) := by
  refine ⟨?_, fsi_val_ptr_congr x y, fsi_compare_validity_iff x y⟩
  intro buf hbuf k hk
  rw [fsi_val_ptr] at hbuf
  by_cases h0 : countNone x = 0
  · rw [if_pos h0] at hbuf
    exact Option.noConfusion hbuf
  · rw [if_neg h0] at hbuf
    injection hbuf with hbuf
    subst hbuf
    by_cases hin : x.length / 8 < (x.length + 7) / 8
    · rw [getD_map_range _ _ _ _ hin]
      by_cases hk8 : k < 8
      · rw [byteSpec_testBit_at x _ k hk8]
        exact bitAt_eq_false x _ (by omega)
      · have hlt : byteSpec x (x.length / 8) < 2 ^ k := by
          apply lt_of_lt_of_le (byteSpec_lt x _)
          calc (256 : Nat) = 2 ^ 8 := by norm_num
          _ ≤ 2 ^ k := Nat.pow_le_pow_right (by norm_num) (by omega)
        exact Nat.testBit_lt_two_pow hlt
    · rw [List.getD_eq_getElem?_getD, List.getElem?_eq_none (by simp; omega)]
      simp [Nat.zero_testBit]

theorem claim_c10_witness :
    (from_sized_iter [some (F64V.num 1), none, some (F64V.num 2)]).val_ptr =
      (from_sized_iter [some (F64V.num 5), none, some (F64V.num 7)]).val_ptr :=
  (claim_c10_validity_bytes [some (F64V.num 1), none, some (F64V.num 2)]
    [some (F64V.num 5), none, some (F64V.num 7)]).2.1 rfl (by decide)
